import Mathlib

/-!
# Verification of the XeTeX format-file decoder (`crates/xetex_format/src/format.rs`)

This file gives a shallow embedding of the format-file decoder: a byte-stream
parser monad standing for the `nom`-based combinators, direct translations of
the decoding steps of `parse_impl`, and the read-only `eqtb` accessors.

The external sub-decoders (string table, memory arena, equivalences table,
control-sequence hash) and the version resolver live outside the given source;
they are modelled from the specification as opaque collaborators that consume a
prefix of the input and return their decoded state.

Machine integers are modelled as `Int` with explicit two's-complement reduction
at the byte boundary; `Vec` indexing with an out-of-bounds index is modelled by
a distinguished `crash` outcome (a Rust index panic), which is distinct from
the decoder's own error taxonomy.
-/

/-- A byte stream: each entry is one byte, `0 ≤ b < 256`. -/
abbrev Bytes := List Nat

/-- The decoder's error taxonomy (spec section 7): structural mismatch,
range violation, unknown version, truncation.  Mismatch/range errors carry
the byte offset of the offending field. -/
inductive PErr where
  | structuralMismatch (offset : Nat) : PErr
  | rangeViolation (offset : Nat) : PErr
  | unknownVersion : PErr
  | truncation : PErr
deriving DecidableEq

/-- Parser state: the remaining input and the number of bytes consumed so far. -/
structure PState where
  buf : Bytes
  off : Nat
deriving DecidableEq

/-- Outcome of running a decoding step: success with the advanced state, a
decode error from the taxonomy, or `crash` — an abort outside the taxonomy
(the model of a Rust panic, e.g. an out-of-bounds `Vec` index). -/
inductive PResult (α : Type) where
  | ok : PState → α → PResult α
  | err : PErr → PResult α
  | crash : PResult α

/-- The parser monad: a state-passing function, standing for nom's
`&[u8] -> IResult<&[u8], T>` combinator shape. -/
def PM (α : Type) : Type := PState → PResult α

def PM.pure {α : Type} (a : α) : PM α := fun s => .ok s a

def PM.bind {α β : Type} (m : PM α) (f : α → PM β) : PM β := fun s =>
  match m s with
  | .ok s' a => f a s'
  | .err e => .err e
  | .crash => .crash

instance : Monad PM where
  pure := PM.pure
  bind := PM.bind

/-- A decoding step that fails with taxonomy error `e`. -/
def perr {α : Type} (e : PErr) : PM α := fun _ => .err e

/-- A decoding step that aborts outside the taxonomy (Rust panic). -/
def pcrash {α : Type} : PM α := fun _ => .crash

/-- `nom::number::complete::be_i32`: four bytes, big endian, two's complement. -/
def be_i32 : PM Int := fun s =>
  match s.buf with
  | b0 :: b1 :: b2 :: b3 :: rest =>
    let n : Nat := ((b0 * 256 + b1) * 256 + b2) * 256 + b3
    .ok ⟨rest, s.off + 4⟩ (if n < 2147483648 then (n : Int) else (n : Int) - 4294967296)
  | _ => .err .truncation

/-- `nom::number::complete::be_i16`: two bytes, big endian, two's complement. -/
def be_i16 : PM Int := fun s =>
  match s.buf with
  | b0 :: b1 :: rest =>
    let n : Nat := b0 * 256 + b1
    .ok ⟨rest, s.off + 2⟩ (if n < 32768 then (n : Int) else (n : Int) - 65536)
  | _ => .err .truncation

/-- `nom::number::complete::be_u16`: two bytes, big endian, unsigned. -/
def be_u16 : PM Int := fun s =>
  match s.buf with
  | b0 :: b1 :: rest => .ok ⟨rest, s.off + 2⟩ ((b0 * 256 + b1 : Nat) : Int)
  | _ => .err .truncation

/-- `nom::number::complete::be_i64`: eight bytes, big endian, two's complement. -/
def be_i64 : PM Int := fun s =>
  match s.buf with
  | b0 :: b1 :: b2 :: b3 :: b4 :: b5 :: b6 :: b7 :: rest =>
    let n : Nat :=
      ((((((b0 * 256 + b1) * 256 + b2) * 256 + b3) * 256 + b4) * 256 + b5) * 256 + b6) * 256 + b7
    .ok ⟨rest, s.off + 8⟩
      (if n < 9223372036854775808 then (n : Int) else (n : Int) - 18446744073709551616)
  | _ => .err .truncation

/-- Modelled from the spec: `parseutils::satisfy_be_i32` (the missing
`parseutils` module) — the exact-match read: consume a big-endian `i32` and
fail with a structural mismatch at the field's offset unless it equals the
expected value. -/
def satisfy_be_i32 (expected : Int) : PM Int := fun s =>
  match be_i32 s with
  | .ok s' v => if v = expected then .ok s' v else .err (.structuralMismatch s.off)
  | .err e => .err e
  | .crash => .crash

/-- Modelled from the spec: `parseutils::ranged_be_i32` (the missing
`parseutils` module) — the range-checked read: consume a big-endian `i32` and
fail with a range violation at the field's offset unless it lies in the
inclusive range `[lo, hi]`. -/
def ranged_be_i32 (lo hi : Int) : PM Int := fun s =>
  match be_i32 s with
  | .ok s' v => if lo ≤ v ∧ v ≤ hi then .ok s' v else .err (.rangeViolation s.off)
  | .err e => .err e
  | .crash => .crash

/-- `nom::multi::count`: run a sub-reader a fixed number of times, collecting
the results in order. -/
def pcount {α : Type} (r : PM α) : Nat → PM (List α)
  | 0 => pure []
  | n + 1 => do
    let x ← r
    let xs ← pcount r n
    pure (x :: xs)

-- Constants from `format.rs`.

def HEADER_MAGIC : Int := 0x54544E43

def FOOTER_MAGIC : Int := 0x0000029A

def TOO_BIG_CHAR : Int := 0x00010000

def HYPH_SIZE : Nat := 8191

def TRIE_OP_SIZE : Int := 35111

def BIGGEST_LANG : Nat := 255

/-- Modelled from the spec: `base::MIN_HALFWORD` (the missing `base` module) —
the lower halfword bound used for memory-arena pointers. -/
def MIN_HALFWORD : Int := -0x0FFFFFFF

/-- Modelled from the spec: `base::MAX_HALFWORD` (the missing `base` module) —
the upper halfword bound used for memory-arena pointers. -/
def MAX_HALFWORD : Int := 0x3FFFFFFF

/-- Modelled from the spec: `base::NUMBER_USVS` (the missing `base` module) —
the number of Unicode scalar-value slots indexed per-code-point. -/
def NUMBER_USVS : Nat := 0x110000

def MAX_USV : Int := (NUMBER_USVS : Int)

-- External collaborators, modelled from the spec (their sources are not part
-- of the given material; only `format.rs` is).

/-- Modelled from the spec: the immutable structural constants resolved per
format version (`engine::Engine`'s settings). -/
structure Settings where
  mem_top : Int
  eqtb_size : Int
  hash_prime : Int
  hash_base : Int
  eqtb_top : Int
  prim_size : Nat
  max_fonts : Int
  active_base : Int
  cat_code_base : Int
  undefined_cs_command : Int

/-- Modelled from the spec: the resolved engine, carrying its settings. -/
structure Engine where
  settings : Settings

/-- Modelled from the spec: the decoded string pool; the decoder core only
consumes its length (`strings.len()`). -/
structure StringTable where
  len : Nat

/-- Modelled from the spec: the decoded memory arena; the decoder core only
consumes its low-memory high-water mark (`mem.lo_mem_max`). -/
structure Memory where
  lo_mem_max : Int

/-- Modelled from the spec: one equivalences-table entry, with a command type
and a value (`eqtb::EqtbEntry`). -/
structure EqtbEntry where
  ty : Int
  value : Int

/-- Modelled from the spec: the decoded equivalences table, exposed through
its `decode` accessor taking an absolute eqtb index. -/
structure EquivalenciesTable where
  decode : Int → EqtbEntry

/-- Modelled from the spec: the decoded control-sequence hash (opaque to the
decoder core). -/
structure ControlSeqHash where
  dummy : Unit

/-- The decode result of `format.rs`: the five retained parts. -/
structure Format where
  engine : Engine
  strings : StringTable
  mem : Memory
  eqtb : EquivalenciesTable
  cshash : ControlSeqHash

/-- Modelled from the spec: the external collaborators consumed by
`parse_impl` — the version resolver and the four sub-table decoders, each of
which consumes a prefix of the remaining bytes and returns its decoded state. -/
structure Exts where
  new_for_version : Int → Option Settings
  stringtable_parse : PM StringTable
  memory_parse : Engine → PM Memory
  eqtb_parse : Engine → Int → PM EquivalenciesTable
  cshash_parse : Engine → Int → PM ControlSeqHash

/-- Modelled from the spec: `Engine::new_for_version` — resolve the settings
for a format serial number; unknown versions are a hard failure. -/
def resolveVersion (X : Exts) (serial : Int) : PM Engine :=
  match X.new_for_version serial with
  | some st => pure ⟨st⟩
  | none => perr .unknownVersion

-- The font block (`format.rs` lines 196-233).

/-- The tail of the font block after the leading font-memory-pointer read:
the opaque font-program words and the per-font parallel attribute arrays. -/
def fontBlockRest (fmem_ptr maxFonts loMemMax : Int) : PM Unit := do
  let _font_info ← pcount be_i64 fmem_ptr.toNat
  let font_ptr ← ranged_be_i32 0 maxFonts
  let nFonts := font_ptr.toNat + 1
  let _font_check ← pcount be_i64 nFonts
  let _font_size ← pcount be_i32 nFonts
  let _font_dsize ← pcount be_i32 nFonts
  let _font_params ← pcount (ranged_be_i32 MIN_HALFWORD MAX_HALFWORD) nFonts
  let _hyphen_char ← pcount be_i32 nFonts
  let _skew_char ← pcount be_i32 nFonts
  let _font_name ← pcount be_i32 nFonts
  let _font_area ← pcount be_i32 nFonts
  let _font_bc ← pcount be_i16 nFonts
  let _font_ec ← pcount be_i16 nFonts
  let _char_base ← pcount be_i32 nFonts
  let _width_base ← pcount be_i32 nFonts
  let _height_base ← pcount be_i32 nFonts
  let _depth_base ← pcount be_i32 nFonts
  let _italic_base ← pcount be_i32 nFonts
  let _lig_kern_base ← pcount be_i32 nFonts
  let _kern_base ← pcount be_i32 nFonts
  let _exten_base ← pcount be_i32 nFonts
  let _param_base ← pcount be_i32 nFonts
  let _font_glue ← pcount (ranged_be_i32 MIN_HALFWORD loMemMax) nFonts
  let _bchar_label ← pcount (ranged_be_i32 0 (fmem_ptr - 1)) nFonts
  let _font_bchar ← pcount (ranged_be_i32 0 TOO_BIG_CHAR) nFonts
  let _font_false_bchar ← pcount (ranged_be_i32 0 TOO_BIG_CHAR) nFonts
  pure ()

/-- The font block (`format.rs` lines 196-233): a range-checked font memory
pointer, then the rest of the block. -/
def fontBlock (maxFonts loMemMax : Int) : PM Unit := do
  let fmem_ptr ← ranged_be_i32 7 147483647
  fontBlockRest fmem_ptr maxFonts loMemMax

-- The hyphenation block (`format.rs` lines 237-267).

/-- Unpacking of a hyphenation record's leading value (`format.rs` lines
251-256): values above `0xFFFF` carry the chain link in their upper half. -/
def unpackHyph (v : Int) : Int × Int :=
  if v > 0xFFFF then (v / 0x10000, v - (v / 0x10000) * 0x10000) else (0, v)

/-- The three parallel hyphenation-exception arrays, each of capacity
`HYPH_SIZE`; modelled as total maps written only through the bounds-guarded
store in `hyphIter`. -/
structure HyphArrays where
  link : Nat → Nat
  word : Nat → Int
  list : Nat → Int

/-- The stores of one hyphenation record `(v, w, l)` into the three arrays
(`format.rs` lines 258, 261, 264): `link[slot]` takes the chain value as a
`u16`, `word[slot]` the word id, `list[slot]` the list pointer. -/
def applyRec (st : HyphArrays) (r : Int × Int × Int) : HyphArrays where
  link := Function.update st.link (unpackHyph r.1).2.toNat ((unpackHyph r.1).1.toNat % 65536)
  word := Function.update st.word (unpackHyph r.1).2.toNat r.2.1
  list := Function.update st.list (unpackHyph r.1).2.toNat r.2.2

/-- One iteration of the hyphenation-record loop (`format.rs` lines 248-267).
The slot index is used to index the `Vec`s of length `HYPH_SIZE` with no
preceding range check, so an out-of-range slot is a `crash` (Rust panic,
raised before the word field is read), not a taxonomy error.  The three
stores are grouped in `applyRec`; partially stored arrays are unobservable
since every non-success outcome drops them. -/
def hyphIter (maxWord : Int) (st : HyphArrays) : PM HyphArrays := do
  let v ← be_i32
  if 0 ≤ (unpackHyph v).2 ∧ (unpackHyph v).2 < (HYPH_SIZE : Int) then
    let w ← ranged_be_i32 0 maxWord
    let l ← ranged_be_i32 MIN_HALFWORD MAX_HALFWORD
    pure (applyRec st (v, w, l))
  else
    pcrash

/-- The hyphenation-record loop, iterated `hyph_count` times. -/
def hyphLoop (maxWord : Int) : Nat → HyphArrays → PM HyphArrays
  | 0, st => pure st
  | n + 1, st => do
    let st' ← hyphIter maxWord st
    hyphLoop maxWord n st'

/-- The hyphenation block (`format.rs` lines 237-267): the exception count, a
discarded `hyph_next` word, then `hyph_count` records folded over the three
zero-initialized arrays.  A negative count iterates zero times (Rust's
`0..hyph_count` is empty). -/
def hyphBlock (stringsLen : Nat) : PM HyphArrays := do
  let hyph_count ← be_i32
  let _hyph_next ← be_i32
  let maxWord := (stringsLen : Int) + TOO_BIG_CHAR - 1
  hyphLoop maxWord hyph_count.toNat ⟨fun _ => 0, fun _ => 0, fun _ => 0⟩

-- The trie block (`format.rs` lines 271-304).

/-- The per-language operation-index reconstruction loop (`format.rs` lines
292-304), by structural recursion on an upper bound `b` of the remaining
budget `j` (the Rust loop's termination measure is the strictly decreasing
budget; the bound makes the definition compute by kernel reduction).  `k` is
the decreasing next-free-language bound.  The count read inlines
`ranged_be_i32 1 j` so its bound is in scope; the array store is guarded by
the `Vec` length `BIGGEST_LANG + 1`, a violation being a `crash`. -/
def trieOpLoopGo : (b : Nat) → (k : Nat) → (j : Int) → j ≤ (b : Int) →
    (Nat → Int) → (Nat → Int) → PState → PResult ((Nat → Int) × (Nat → Int))
  | b, k, j, hb, used, op_start, s =>
    if hj : 0 < j then
      match ranged_be_i32 0 ((k : Int) - 1) s with
      | .err e => .err e
      | .crash => .crash
      | .ok s1 nk =>
        match be_i32 s1 with
        | .err e => .err e
        | .crash => .crash
        | .ok s2 u =>
          if hu : 1 ≤ u ∧ u ≤ j then
            if nk.toNat ≤ BIGGEST_LANG then
              match b, hb with
              | b' + 1, hb =>
                trieOpLoopGo b' nk.toNat (j - u) (by push_cast at hb ⊢; omega)
                  (Function.update used nk.toNat u)
                  (Function.update op_start nk.toNat (j - u)) s2
              | 0, hb => absurd hj (by omega)
            else .crash
          else .err (.rangeViolation s1.off)
    else .ok s (used, op_start)

/-- The per-language operation-index reconstruction loop (`format.rs` lines
292-304), entered with the remaining budget as its own bound. -/
def trieOpLoop (k : Nat) (j : Int) (used op_start : Nat → Int) (s : PState) :
    PResult ((Nat → Int) × (Nat → Int)) :=
  trieOpLoopGo j.toNat k j (Int.self_le_toNat j) used op_start s

/-- The trie block (`format.rs` lines 271-304): the compacted trie tables,
the per-operation rule tables, then the reverse-allocated per-language
operation index.  `trie_max.toNat` stands for `trie_max as usize`: the two
differ only for negative `trie_max`, which the preceding `hyph_start` read —
range-checked into the then-empty `[0, trie_max]` — already rejects. -/
def trieBlock : PM ((Nat → Int) × (Nat → Int)) := do
  let trie_max ← be_i32
  let _hyph_start ← ranged_be_i32 0 trie_max
  let nTrie := trie_max.toNat + 1
  let _trie_trl ← pcount be_i32 nTrie
  let _trie_tro ← pcount be_i32 nTrie
  let _trie_trc ← pcount be_u16 nTrie
  let _max_hyph_char ← be_i32
  let trie_op_ptr ← ranged_be_i32 0 TRIE_OP_SIZE
  let _hyf_distance ← pcount be_i16 trie_op_ptr.toNat
  let _hyf_num ← pcount be_i16 trie_op_ptr.toNat
  let _hyf_next ← pcount be_u16 trie_op_ptr.toNat
  fun s => trieOpLoop (BIGGEST_LANG + 1) trie_op_ptr (fun _ => 0) (fun _ => 0) s

-- The format assembler (`format.rs` lines 151-318).

/-- `parse_impl` (`format.rs` lines 151-318): the strictly sequential decode
of a format dump, parameterized over the external collaborators `X`. -/
def parse_impl (X : Exts) : PM Format := do
  let _magic ← satisfy_be_i32 HEADER_MAGIC
  let serial ← be_i32
  let engine ← resolveVersion X serial
  let hash_high ← be_i32
  let _mem_top ← satisfy_be_i32 engine.settings.mem_top
  let _eqtb_size ← satisfy_be_i32 engine.settings.eqtb_size
  let _hash_prime ← satisfy_be_i32 engine.settings.hash_prime
  let _hyph_prime ← be_i32
  let strings ← X.stringtable_parse
  let mem ← X.memory_parse engine
  let eqtb ← X.eqtb_parse engine hash_high
  let _par_loc ← ranged_be_i32 engine.settings.hash_base engine.settings.eqtb_top
  let _write_loc ← ranged_be_i32 engine.settings.hash_base engine.settings.eqtb_top
  let _prims ← pcount be_i64 (engine.settings.prim_size + 1)
  let cshash ← X.cshash_parse engine hash_high
  let _fonts ← fontBlock engine.settings.max_fonts mem.lo_mem_max
  let _hyph ← hyphBlock strings.len
  let _trie ← trieBlock
  let _footer ← satisfy_be_i32 FOOTER_MAGIC
  pure { engine := engine, strings := strings, mem := mem, eqtb := eqtb, cshash := cshash }

/-- Outcome of `Format::parse`: the remainder after the footer is discarded. -/
inductive ParseOutcome where
  | success (fmt : Format)
  | failure (e : PErr)
  | crashed

/-- `Format::parse` (`format.rs` lines 51-58): run `parse_impl` from offset 0
and discard the unconsumed remainder. -/
def Format.parse (X : Exts) (input : Bytes) : ParseOutcome :=
  match parse_impl X ⟨input, 0⟩ with
  | .ok _ fmt => .success fmt
  | .err e => .failure e
  | .crash => .crashed

-- The read-only accessors (`format.rs` lines 136-148).

/-- Outcome of a read-only accessor over a decoded `Format`: a value, an
error (`Result::Err`), or a failed caller-contract assertion (`assert!`). -/
inductive AccessOut (α : Type) where
  | ok : α → AccessOut α
  | err : AccessOut α
  | assertFailed : AccessOut α
deriving DecidableEq

/-- Modelled from the spec: `CatCode::from_i32` (the missing `catcodes`
module) — category codes are the sixteen small integers `0..=15`
(`dump_catcodes` iterates exactly these); any other value is an error. -/
def catCodeFromI32 (v : Int) : Option (Fin 16) :=
  if h : 0 ≤ v ∧ v < 16 then some ⟨v.toNat, by omega⟩ else none

/-- `Format::eqtb_active` (`format.rs` lines 136-139): assert the code point
is a USV index, then decode the active-character eqtb entry. -/
def Format.eqtb_active (f : Format) (c : Int) : AccessOut EqtbEntry :=
  if 0 ≤ c ∧ c < MAX_USV then .ok (f.eqtb.decode (f.engine.settings.active_base + c))
  else .assertFailed

/-- `Format::eqtb_catcode` (`format.rs` lines 141-148): assert the code point
is a USV index, then decode the category-code eqtb entry and convert its
value through the fallible `CatCode::from_i32`. -/
def Format.eqtb_catcode (f : Format) (c : Int) : AccessOut (Fin 16) :=
  if 0 ≤ c ∧ c < MAX_USV then
    match catCodeFromI32 (f.eqtb.decode (f.engine.settings.cat_code_base + c)).value with
    | some cc => .ok cc
    | none => .err
  else .assertFailed

-- Concrete inputs: big-endian encoding and a minimal valid dump for the
-- trivial (zero-sized) external collaborators.

/-- Big-endian byte encoding of an `i32` value (two's complement). -/
def encodeI32 (v : Int) : Bytes :=
  let n : Nat := (v % 4294967296).toNat
  [n / 16777216, n / 65536 % 256, n / 256 % 256, n % 256]

/-- `n` zero bytes. -/
def zeros (n : Nat) : Bytes := List.replicate n 0

/-- All-zero structural constants for the trivial modelled engine version. -/
def trivSettings : Settings where
  mem_top := 0
  eqtb_size := 0
  hash_prime := 0
  hash_base := 0
  eqtb_top := 0
  prim_size := 0
  max_fonts := 0
  active_base := 0
  cat_code_base := 0
  undefined_cs_command := 0

/-- Modelled from the spec: trivial external collaborators — every version
resolves to the zero settings and each sub-table decoder consumes a
zero-length (minimal valid) region. -/
def trivExts : Exts where
  new_for_version := fun _ => some trivSettings
  stringtable_parse := pure ⟨0⟩
  memory_parse := fun _ => pure ⟨0⟩
  eqtb_parse := fun _ _ => pure ⟨fun _ => ⟨0, 0⟩⟩
  cshash_parse := fun _ _ => pure ⟨()⟩

/-- Modelled from the spec: external collaborators identical to `trivExts`
except that the decoded equivalences table holds the value 16 — not a valid
category code — in every entry. -/
def badExts : Exts :=
  { trivExts with eqtb_parse := fun _ _ => pure ⟨fun _ => ⟨0, 16⟩⟩ }

/-- The dump bytes from the header through the font block, for `trivExts`:
all header scalars zero, zero-length external regions, `fmem_ptr = 7`, and a
single all-zero font. -/
def dumpHead : Bytes :=
  encodeI32 HEADER_MAGIC ++
  zeros 24 ++        -- serial, hash_high, mem_top, eqtb_size, hash_prime, hyph_prime
  zeros 8 ++         -- par_loc, write_loc
  zeros 8 ++         -- primitive table (prim_size 0, one 64-bit word)
  encodeI32 7 ++     -- fmem_ptr
  zeros 56 ++        -- font_info (seven 64-bit words)
  zeros 4 ++         -- font_ptr = 0, one font
  zeros 92           -- the 23 per-font attribute entries of font 0

/-- A complete minimal valid dump: empty hyphenation block, single-entry trie
arrays, no language claims, footer magic. -/
def minimalDump : Bytes :=
  dumpHead ++
  zeros 8 ++         -- hyph_count = 0, hyph_next
  zeros 16 ++        -- trie_max = 0, hyph_start, trie_trl, trie_tro
  zeros 2 ++         -- trie_trc (one u16)
  zeros 8 ++         -- max_hyph_char, trie_op_ptr = 0
  encodeI32 FOOTER_MAGIC

/-- The `Format` value decoded from `minimalDump` under `trivExts`. -/
def minimalFmt : Format where
  engine := ⟨trivSettings⟩
  strings := ⟨0⟩
  mem := ⟨0⟩
  eqtb := ⟨fun _ => ⟨0, 0⟩⟩
  cshash := ⟨()⟩

/-- The `Format` value decoded from `minimalDump` under `badExts`. -/
def badFmt : Format where
  engine := ⟨trivSettings⟩
  strings := ⟨0⟩
  mem := ⟨0⟩
  eqtb := ⟨fun _ => ⟨0, 16⟩⟩
  cshash := ⟨()⟩

/-- A dump identical to `minimalDump` up to the hyphenation block, whose one
hyphenation record has leading value `v = 8191`: its slot index equals
`HYPH_SIZE`, one past the last valid index `8190`. -/
def c1Dump : Bytes :=
  dumpHead ++
  encodeI32 1 ++     -- hyph_count = 1
  encodeI32 0 ++     -- hyph_next
  encodeI32 8191     -- the record's leading value: slot 8191, link 0

/-! ## Basic lemmas about the parser monad and the primitive readers -/

theorem bind_def {α β : Type} (m : PM α) (f : α → PM β) : m >>= f = PM.bind m f := rfl

theorem pure_def {α : Type} (a : α) : (pure a : PM α) = PM.pure a := rfl

theorem PM.bind_ok {α β : Type} {m : PM α} {f : α → PM β} {s s' : PState} {a : α}
    (h : m s = .ok s' a) : PM.bind m f s = f a s' := by
  unfold PM.bind
  rw [h]

theorem PM.bind_err {α β : Type} {m : PM α} {f : α → PM β} {s : PState} {e : PErr}
    (h : m s = .err e) : PM.bind m f s = .err e := by
  unfold PM.bind
  rw [h]

theorem PM.bind_crash {α β : Type} {m : PM α} {f : α → PM β} {s : PState}
    (h : m s = .crash) : PM.bind m f s = .crash := by
  unfold PM.bind
  rw [h]

/-- Inversion for a successful bind. -/
theorem PM.bind_ok_inv {α β : Type} {m : PM α} {f : α → PM β} {s s'' : PState} {b : β}
    (h : PM.bind m f s = .ok s'' b) : ∃ s' a, m s = .ok s' a ∧ f a s' = .ok s'' b := by
  unfold PM.bind at h
  revert h
  cases hm : m s with
  | ok s' a => exact fun h => ⟨s', a, rfl, h⟩
  | err e => intro h; cases h
  | crash => intro h; cases h

theorem PM.pure_ok {α : Type} (a : α) (s : PState) : PM.pure a s = .ok s a := rfl

/-- `be_i32` on an explicitly encoded `i32` reads back exactly that value and
consumes four bytes. -/
theorem be_i32_encode {v : Int} (h0 : -2147483648 ≤ v) (h1 : v < 2147483648)
    (rest : Bytes) (off : Nat) :
    be_i32 ⟨encodeI32 v ++ rest, off⟩ = .ok ⟨rest, off + 4⟩ v := by
  unfold be_i32 encodeI32
  simp only [List.cons_append, List.nil_append]
  have hm : (0 : Int) ≤ v % 4294967296 := Int.emod_nonneg v (by norm_num)
  have hm2 : v % 4294967296 < 4294967296 := Int.emod_lt_of_pos v (by norm_num)
  set n : Nat := (v % 4294967296).toNat with hn
  have hn2 : (n : Int) = v % 4294967296 := Int.toNat_of_nonneg hm
  have hnlt : n < 4294967296 := by omega
  have hre : ((n / 16777216 * 256 + n / 65536 % 256) * 256 + n / 256 % 256) * 256 + n % 256 = n := by
    omega
  rw [hre]
  split <;> (rw [PResult.ok.injEq]; exact ⟨rfl, by omega⟩)

/-- Shorthand: `v` fits in an `i32`. -/
def I32Range (v : Int) : Prop := -2147483648 ≤ v ∧ v < 2147483648

theorem satisfy_be_i32_eq {v : Int} (h0 : -2147483648 ≤ v) (h1 : v < 2147483648)
    (rest : Bytes) (off : Nat) :
    satisfy_be_i32 v ⟨encodeI32 v ++ rest, off⟩ = .ok ⟨rest, off + 4⟩ v := by
  unfold satisfy_be_i32
  rw [be_i32_encode h0 h1 rest off]
  simp

theorem satisfy_be_i32_ne {v expected : Int} (h0 : -2147483648 ≤ v) (h1 : v < 2147483648)
    (hne : v ≠ expected) (rest : Bytes) (off : Nat) :
    satisfy_be_i32 expected ⟨encodeI32 v ++ rest, off⟩ = .err (.structuralMismatch off) := by
  unfold satisfy_be_i32
  rw [be_i32_encode h0 h1 rest off]
  simp [hne]

theorem ranged_be_i32_in {lo hi v : Int} (h0 : -2147483648 ≤ v) (h1 : v < 2147483648)
    (hlo : lo ≤ v) (hhi : v ≤ hi) (rest : Bytes) (off : Nat) :
    ranged_be_i32 lo hi ⟨encodeI32 v ++ rest, off⟩ = .ok ⟨rest, off + 4⟩ v := by
  unfold ranged_be_i32
  rw [be_i32_encode h0 h1 rest off]
  simp [hlo, hhi]

theorem ranged_be_i32_out {lo hi v : Int} (h0 : -2147483648 ≤ v) (h1 : v < 2147483648)
    (hout : ¬(lo ≤ v ∧ v ≤ hi)) (rest : Bytes) (off : Nat) :
    ranged_be_i32 lo hi ⟨encodeI32 v ++ rest, off⟩ = .err (.rangeViolation off) := by
  unfold ranged_be_i32
  rw [be_i32_encode h0 h1 rest off]
  simp [hout]

/-- A successful range-checked read satisfies its bounds. -/
theorem ranged_be_i32_ok_inv {lo hi : Int} {s s' : PState} {v : Int}
    (h : ranged_be_i32 lo hi s = .ok s' v) :
    (lo ≤ v ∧ v ≤ hi) ∧ be_i32 s = .ok s' v := by
  unfold ranged_be_i32 at h
  split at h
  · split at h
    · rename_i hb hc
      cases h
      exact ⟨hc, hb⟩
    · cases h
  · cases h
  · cases h

/-- A successful exact-match read returns the expected value. -/
theorem satisfy_be_i32_ok_inv {expected : Int} {s s' : PState} {v : Int}
    (h : satisfy_be_i32 expected s = .ok s' v) :
    v = expected ∧ be_i32 s = .ok s' v := by
  unfold satisfy_be_i32 at h
  split at h
  · split at h
    · rename_i hb hc
      cases h
      exact ⟨hc, hb⟩
    · cases h
  · cases h
  · cases h

/-- A successful raw `i32` read advances the offset by exactly 4. -/
theorem be_i32_ok_inv {s s' : PState} {v : Int} (h : be_i32 s = .ok s' v) :
    s'.off = s.off + 4 := by
  unfold be_i32 at h
  split at h
  · cases h
    rfl
  · cases h

/-! ## Prefix stability: appending bytes after a successful decode changes nothing -/

/-- A decoding step is prefix-stable when bytes appended after the input it
consumed are carried through a successful outcome untouched. -/
def PrefixOK {α : Type} (m : PM α) : Prop :=
  ∀ (buf : Bytes) (off : Nat) (s' : PState) (a : α) (ext : Bytes),
    m ⟨buf, off⟩ = .ok s' a → m ⟨buf ++ ext, off⟩ = .ok ⟨s'.buf ++ ext, s'.off⟩ a

theorem prefixOK_pure {α : Type} (a : α) : PrefixOK (pure a : PM α) := by
  intro buf off s' b ext h
  cases h
  rfl

theorem prefixOK_perr {α : Type} (e : PErr) : PrefixOK (perr e : PM α) := by
  intro buf off s' a ext h
  cases h

theorem prefixOK_pcrash {α : Type} : PrefixOK (pcrash : PM α) := by
  intro buf off s' a ext h
  cases h

theorem prefixOK_bind {α β : Type} {m : PM α} {f : α → PM β}
    (hm : PrefixOK m) (hf : ∀ a, PrefixOK (f a)) : PrefixOK (m >>= f) := by
  intro buf off s'' b ext h
  rw [bind_def] at h ⊢
  unfold PM.bind at h ⊢
  revert h
  cases h1 : m ⟨buf, off⟩ with
  | ok s1 a =>
    intro h
    have h1' := hm buf off s1 a ext h1
    simp only [h1']
    exact hf a s1.buf s1.off s'' b ext h
  | err e => intro h; cases h
  | crash => intro h; cases h

theorem prefixOK_ite {α : Type} {c : Prop} [Decidable c] {m1 m2 : PM α}
    (h1 : PrefixOK m1) (h2 : PrefixOK m2) : PrefixOK (if c then m1 else m2) := by
  by_cases hc : c
  · rw [if_pos hc]; exact h1
  · rw [if_neg hc]; exact h2

theorem prefixOK_be_i32 : PrefixOK be_i32 := by
  intro buf off s' a ext h
  unfold be_i32 at h ⊢
  rcases buf with _ | ⟨b0, _ | ⟨b1, _ | ⟨b2, _ | ⟨b3, rest⟩⟩⟩⟩ <;> (try cases h)
  rfl

theorem prefixOK_be_i16 : PrefixOK be_i16 := by
  intro buf off s' a ext h
  unfold be_i16 at h ⊢
  rcases buf with _ | ⟨b0, _ | ⟨b1, rest⟩⟩ <;> (try cases h)
  rfl

theorem prefixOK_be_u16 : PrefixOK be_u16 := by
  intro buf off s' a ext h
  unfold be_u16 at h ⊢
  rcases buf with _ | ⟨b0, _ | ⟨b1, rest⟩⟩ <;> (try cases h)
  rfl

theorem prefixOK_be_i64 : PrefixOK be_i64 := by
  intro buf off s' a ext h
  unfold be_i64 at h ⊢
  rcases buf with _ | ⟨b0, _ | ⟨b1, _ | ⟨b2, _ | ⟨b3, _ | ⟨b4, _ | ⟨b5, _ | ⟨b6, _ | ⟨b7, rest⟩⟩⟩⟩⟩⟩⟩⟩ <;>
    (try cases h)
  rfl

theorem prefixOK_satisfy (expected : Int) : PrefixOK (satisfy_be_i32 expected) := by
  intro buf off s' a ext h
  obtain ⟨he, hbe⟩ := satisfy_be_i32_ok_inv h
  have hbe' := prefixOK_be_i32 buf off s' a ext hbe
  unfold satisfy_be_i32
  simp only [hbe']
  rw [if_pos he]

theorem prefixOK_ranged (lo hi : Int) : PrefixOK (ranged_be_i32 lo hi) := by
  intro buf off s' a ext h
  obtain ⟨hb, hbe⟩ := ranged_be_i32_ok_inv h
  have hbe' := prefixOK_be_i32 buf off s' a ext hbe
  unfold ranged_be_i32
  simp only [hbe']
  rw [if_pos hb]

theorem prefixOK_pcount {α : Type} (r : PM α) (h : PrefixOK r) :
    ∀ n, PrefixOK (pcount r n) := by
  intro n
  induction n with
  | zero => exact prefixOK_pure []
  | succ n ih =>
    exact prefixOK_bind h (fun x => prefixOK_bind ih (fun xs => prefixOK_pure (x :: xs)))

theorem prefixOK_resolveVersion (X : Exts) (serial : Int) :
    PrefixOK (resolveVersion X serial) := by
  unfold resolveVersion
  cases X.new_for_version serial with
  | some st => exact prefixOK_pure _
  | none => exact prefixOK_perr _

theorem prefixOK_trieOpLoopGo :
    ∀ (b k : Nat) (j : Int) (hb : j ≤ (b : Int)) (used op_start : Nat → Int),
      PrefixOK (trieOpLoopGo b k j hb used op_start) := by
  intro b
  induction b with
  | zero =>
    intro k j hb used op_start buf off s' a ext h
    unfold trieOpLoopGo at h ⊢
    rw [dif_neg (by omega : ¬ 0 < j)] at h ⊢
    cases h
    rfl
  | succ b' ih =>
    intro k j hb used op_start buf off s'' r ext h
    unfold trieOpLoopGo at h ⊢
    by_cases hj : 0 < j
    · rw [dif_pos hj] at h ⊢
      cases h1 : ranged_be_i32 0 ((k : Int) - 1) ⟨buf, off⟩ with
      | err e => simp [h1] at h
      | crash => simp [h1] at h
      | ok s1 nk =>
        simp only [h1] at h
        simp only [prefixOK_ranged 0 ((k : Int) - 1) buf off s1 nk ext h1]
        cases h2 : be_i32 s1 with
        | err e => simp [h2] at h
        | crash => simp [h2] at h
        | ok s2 u =>
          simp only [h2] at h
          simp only [prefixOK_be_i32 s1.buf s1.off s2 u ext h2]
          by_cases hu : 1 ≤ u ∧ u ≤ j
          · rw [dif_pos hu] at h ⊢
            by_cases hk : nk.toNat ≤ BIGGEST_LANG
            · rw [if_pos hk] at h ⊢
              exact ih _ _ _ _ _ s2.buf s2.off s'' r ext h
            · rw [if_neg hk] at h
              cases h
          · rw [dif_neg hu] at h
            cases h
    · rw [dif_neg hj] at h ⊢
      cases h
      rfl

theorem prefixOK_trieOpLoop (k : Nat) (j : Int) (used op_start : Nat → Int) :
    PrefixOK (fun s => trieOpLoop k j used op_start s) :=
  prefixOK_trieOpLoopGo j.toNat k j (Int.self_le_toNat j) used op_start

theorem prefixOK_hyphIter (maxWord : Int) (st : HyphArrays) :
    PrefixOK (hyphIter maxWord st) := by
  unfold hyphIter
  refine prefixOK_bind prefixOK_be_i32 (fun v => ?_)
  refine prefixOK_ite ?_ prefixOK_pcrash
  refine prefixOK_bind (prefixOK_ranged _ _) (fun w => ?_)
  refine prefixOK_bind (prefixOK_ranged _ _) (fun l => ?_)
  exact prefixOK_pure _

theorem prefixOK_hyphLoop (maxWord : Int) :
    ∀ (n : Nat) (st : HyphArrays), PrefixOK (hyphLoop maxWord n st) := by
  intro n
  induction n with
  | zero => intro st; exact prefixOK_pure st
  | succ n ih =>
    intro st
    exact prefixOK_bind (prefixOK_hyphIter maxWord st) (fun st' => ih st')

theorem prefixOK_hyphBlock (stringsLen : Nat) : PrefixOK (hyphBlock stringsLen) := by
  unfold hyphBlock
  refine prefixOK_bind prefixOK_be_i32 (fun c => ?_)
  refine prefixOK_bind prefixOK_be_i32 (fun x => ?_)
  exact prefixOK_hyphLoop _ _ _

theorem prefixOK_fontBlockRest (fmem_ptr maxFonts loMemMax : Int) :
    PrefixOK (fontBlockRest fmem_ptr maxFonts loMemMax) := by
  unfold fontBlockRest
  repeat
    first
    | exact prefixOK_pure _
    | exact prefixOK_be_i32
    | exact prefixOK_be_i16
    | exact prefixOK_be_u16
    | exact prefixOK_be_i64
    | exact prefixOK_ranged _ _
    | exact prefixOK_satisfy _
    | exact prefixOK_pcount _ prefixOK_be_i32 _
    | exact prefixOK_pcount _ prefixOK_be_i16 _
    | exact prefixOK_pcount _ prefixOK_be_u16 _
    | exact prefixOK_pcount _ prefixOK_be_i64 _
    | exact prefixOK_pcount _ (prefixOK_ranged _ _) _
    | refine prefixOK_bind ?_ (fun _ => ?_)

theorem prefixOK_fontBlock (maxFonts loMemMax : Int) :
    PrefixOK (fontBlock maxFonts loMemMax) := by
  unfold fontBlock
  exact prefixOK_bind (prefixOK_ranged _ _) (fun fm => prefixOK_fontBlockRest _ _ _)

theorem prefixOK_trieBlock : PrefixOK trieBlock := by
  unfold trieBlock
  repeat
    first
    | exact prefixOK_trieOpLoop _ _ _ _
    | exact prefixOK_be_i32
    | exact prefixOK_ranged _ _
    | exact prefixOK_pcount _ prefixOK_be_i32 _
    | exact prefixOK_pcount _ prefixOK_be_i16 _
    | exact prefixOK_pcount _ prefixOK_be_u16 _
    | refine prefixOK_bind ?_ (fun _ => ?_)

/-- Modelled from the spec: the external sub-table decoders each consume a
contiguous prefix of the remaining bytes, so they are prefix-stable. -/
def ExtsPrefixOK (X : Exts) : Prop :=
  PrefixOK X.stringtable_parse ∧
  (∀ e, PrefixOK (X.memory_parse e)) ∧
  (∀ e hh, PrefixOK (X.eqtb_parse e hh)) ∧
  (∀ e hh, PrefixOK (X.cshash_parse e hh))

theorem prefixOK_parse_impl (X : Exts) (hX : ExtsPrefixOK X) : PrefixOK (parse_impl X) := by
  obtain ⟨hS, hM, hE, hC⟩ := hX
  unfold parse_impl
  repeat
    first
    | exact prefixOK_pure _
    | exact prefixOK_be_i32
    | exact prefixOK_satisfy _
    | exact prefixOK_ranged _ _
    | exact prefixOK_resolveVersion _ _
    | exact hS
    | exact hM _
    | exact hE _ _
    | exact hC _ _
    | exact prefixOK_pcount _ prefixOK_be_i64 _
    | exact prefixOK_fontBlock _ _
    | exact prefixOK_hyphBlock _
    | exact prefixOK_trieBlock
    | refine prefixOK_bind ?_ (fun _ => ?_)

theorem trivExts_prefixOK : ExtsPrefixOK trivExts :=
  ⟨prefixOK_pure _, fun _ => prefixOK_pure _, fun _ _ => prefixOK_pure _,
    fun _ _ => prefixOK_pure _⟩

/-! ## Hyphenation-block lemmas -/

/-- Fold the record stores over the arrays, in stream order. -/
def applyRecs (st : HyphArrays) (recs : List (Int × Int × Int)) : HyphArrays :=
  recs.foldl applyRec st

/-- The slot a record's stores land in. -/
def slotOf (r : Int × Int × Int) : Nat := (unpackHyph r.1).2.toNat

/-- The last record of the list whose slot is `slot`, if any. -/
def lastAt : List (Int × Int × Int) → Nat → Option (Int × Int × Int)
  | [], _ => none
  | r :: rs, slot =>
    match lastAt rs slot with
    | some r' => some r'
    | none => if slotOf r = slot then some r else none

/-- A well-formed encodable hyphenation record: `i32`-ranged fields, slot in
bounds, word and list within their checked ranges. -/
def WFRec (maxWord : Int) (r : Int × Int × Int) : Prop :=
  I32Range r.1 ∧
  0 ≤ (unpackHyph r.1).2 ∧ (unpackHyph r.1).2 < (HYPH_SIZE : Int) ∧
  0 ≤ r.2.1 ∧ r.2.1 ≤ maxWord ∧ r.2.1 < 2147483648 ∧
  MIN_HALFWORD ≤ r.2.2 ∧ r.2.2 ≤ MAX_HALFWORD

/-- Byte encoding of one record: `v`, then the word id, then the list pointer. -/
def encodeRec (r : Int × Int × Int) : Bytes :=
  encodeI32 r.1 ++ (encodeI32 r.2.1 ++ encodeI32 r.2.2)

/-- Byte encoding of a record list, in order. -/
def encodeRecs : List (Int × Int × Int) → Bytes
  | [] => []
  | r :: rs => encodeRec r ++ encodeRecs rs

/-- One loop iteration on an encoded well-formed record consumes its twelve
bytes and performs exactly its stores. -/
theorem hyphIter_encode {maxWord : Int} {r : Int × Int × Int} (hr : WFRec maxWord r)
    (st : HyphArrays) (rest : Bytes) (off : Nat) :
    hyphIter maxWord st ⟨encodeRec r ++ rest, off⟩ = .ok ⟨rest, off + 12⟩ (applyRec st r) := by
  obtain ⟨v, w, l⟩ := r
  obtain ⟨⟨hv0, hv1⟩, hs0, hs1, hw0, hw1, hw2, hl0, hl1⟩ := hr
  unfold hyphIter
  simp only [encodeRec, List.append_assoc, bind_def]
  simp only [PM.bind_ok (be_i32_encode hv0 hv1 (encodeI32 w ++ (encodeI32 l ++ rest)) off)]
  rw [if_pos ⟨hs0, hs1⟩]
  simp only [PM.bind_ok (ranged_be_i32_in (by omega) hw2 hw0 hw1 (encodeI32 l ++ rest) (off + 4))]
  simp only [PM.bind_ok (ranged_be_i32_in
    (by unfold MIN_HALFWORD at hl0; omega) (by unfold MAX_HALFWORD at hl1; omega)
    hl0 hl1 rest (off + 4 + 4))]
  rfl

/-- The loop on an encoded well-formed record list consumes exactly its bytes
and computes the fold of the stores. -/
theorem hyphLoop_encode {maxWord : Int} :
    ∀ (recs : List (Int × Int × Int)), (∀ r ∈ recs, WFRec maxWord r) →
    ∀ (st : HyphArrays) (rest : Bytes) (off : Nat),
    hyphLoop maxWord recs.length st ⟨encodeRecs recs ++ rest, off⟩ =
      .ok ⟨rest, off + 12 * recs.length⟩ (applyRecs st recs) := by
  intro recs
  induction recs with
  | nil =>
    intro _ st rest off
    simp only [List.length_nil, Nat.mul_zero, Nat.add_zero, encodeRecs, List.nil_append]
    rfl
  | cons r rs ih =>
    intro hwf st rest off
    have h1 := hyphIter_encode (hwf r (by simp)) st (encodeRecs rs ++ rest) off
    simp only [List.length_cons, encodeRecs, List.append_assoc]
    show PM.bind (hyphIter maxWord st) (hyphLoop maxWord rs.length)
      ⟨encodeRec r ++ (encodeRecs rs ++ rest), off⟩ = _
    rw [PM.bind_ok (by simpa [List.append_assoc] using h1)]
    rw [show off + 12 * (rs.length + 1) = (off + 12) + 12 * rs.length by ring]
    exact ih (fun r hr => hwf r (by simp [hr])) (applyRec st r) rest (off + 12)

/-- Inversion of one successful loop iteration: some record `(v, w, l)` with
an in-bounds slot was read and its stores applied. -/
theorem hyphIter_ok_inv {maxWord : Int} {st : HyphArrays} {s s' : PState} {out : HyphArrays}
    (h : hyphIter maxWord st s = .ok s' out) :
    ∃ v w l, (0 ≤ (unpackHyph v).2 ∧ (unpackHyph v).2 < (HYPH_SIZE : Int)) ∧
      out = applyRec st (v, w, l) := by
  unfold hyphIter at h
  rw [bind_def] at h
  obtain ⟨s1, v, h1, h2⟩ := PM.bind_ok_inv h
  by_cases hc : 0 ≤ (unpackHyph v).2 ∧ (unpackHyph v).2 < (HYPH_SIZE : Int)
  · rw [if_pos hc] at h2
    rw [bind_def] at h2
    obtain ⟨s2, w, h3, h4⟩ := PM.bind_ok_inv h2
    simp only [bind_def] at h4
    obtain ⟨s3, l, h5, h6⟩ := PM.bind_ok_inv h4
    simp only [pure_def, PM.pure] at h6
    cases h6
    exact ⟨v, w, l, hc, rfl⟩
  · rw [if_neg hc] at h2
    cases h2

/-- Inversion of the whole loop: a successful run is the fold of some list of
in-bounds records, one per iteration. -/
theorem hyphLoop_ok_inv {maxWord : Int} :
    ∀ (n : Nat) (st : HyphArrays) (s s' : PState) (out : HyphArrays),
    hyphLoop maxWord n st s = .ok s' out →
    ∃ recs : List (Int × Int × Int), recs.length = n ∧
      (∀ r ∈ recs, 0 ≤ (unpackHyph r.1).2 ∧ (unpackHyph r.1).2 < (HYPH_SIZE : Int)) ∧
      out = applyRecs st recs := by
  intro n
  induction n with
  | zero =>
    intro st s s' out h
    simp only [hyphLoop, pure_def, PM.pure] at h
    cases h
    exact ⟨[], rfl, by simp, rfl⟩
  | succ n ih =>
    intro st s s' out h
    simp only [hyphLoop, bind_def] at h
    obtain ⟨s1, st1, h1, h2⟩ := PM.bind_ok_inv h
    obtain ⟨v, w, l, hbounds, hst1⟩ := hyphIter_ok_inv h1
    obtain ⟨recs, hlen, hwfs, hout⟩ := ih st1 s1 s' out h2
    refine ⟨(v, w, l) :: recs, by simp [hlen], ?_, ?_⟩
    · intro r hr
      rcases List.mem_cons.mp hr with hr | hr
      · subst hr
        exact hbounds
      · exact hwfs r hr
    · rw [hout, hst1]
      rfl

/-- Slots named by no record keep their previous contents through the fold. -/
theorem applyRecs_lastAt_none (slot : Nat) :
    ∀ (recs : List (Int × Int × Int)) (init : HyphArrays), lastAt recs slot = none →
      (applyRecs init recs).link slot = init.link slot ∧
      (applyRecs init recs).word slot = init.word slot ∧
      (applyRecs init recs).list slot = init.list slot := by
  intro recs
  induction recs with
  | nil => intro init _; exact ⟨rfl, rfl, rfl⟩
  | cons r rs ih =>
    intro init h
    simp only [lastAt] at h
    cases hl : lastAt rs slot with
    | some r' => rw [hl] at h; cases h
    | none =>
      rw [hl] at h
      by_cases hs : slotOf r = slot
      · rw [if_pos hs] at h; cases h
      · rw [if_neg hs] at h
        have step := ih (applyRec init r) hl
        unfold slotOf at hs
        refine ⟨?_, ?_, ?_⟩ <;>
          simp only [applyRecs, List.foldl_cons, applyRec] at step ⊢ <;>
          [rw [step.1]; rw [step.2.1]; rw [step.2.2]] <;>
          exact Function.update_noteq (Ne.symm hs) _ _

/-- The last record naming a slot determines that slot's final contents. -/
theorem applyRecs_lastAt_some (slot : Nat) :
    ∀ (recs : List (Int × Int × Int)) (init : HyphArrays) (r : Int × Int × Int),
      lastAt recs slot = some r →
      (applyRecs init recs).link slot = (unpackHyph r.1).1.toNat % 65536 ∧
      (applyRecs init recs).word slot = r.2.1 ∧
      (applyRecs init recs).list slot = r.2.2 := by
  intro recs
  induction recs with
  | nil => intro init r h; cases h
  | cons r0 rs ih =>
    intro init r h
    simp only [lastAt] at h
    cases hl : lastAt rs slot with
    | some r' =>
      rw [hl] at h
      cases h
      exact ih (applyRec init r0) r hl
    | none =>
      rw [hl] at h
      by_cases hs : slotOf r0 = slot
      · rw [if_pos hs] at h
        cases h
        have step := applyRecs_lastAt_none slot rs (applyRec init r0) hl
        unfold slotOf at hs
        subst hs
        refine ⟨?_, ?_, ?_⟩ <;>
          simp only [applyRecs, List.foldl_cons, applyRec] at step ⊢ <;>
          [rw [step.1]; rw [step.2.1]; rw [step.2.2]] <;>
          simp
      · rw [if_neg hs] at h
        cases h

/-- The all-zero initial hyphenation arrays (`vec![0; HYPH_SIZE]`). -/
def hyphInit : HyphArrays := ⟨fun _ => 0, fun _ => 0, fun _ => 0⟩

/-- Byte layout of the hyphenation block: the count, then the discarded
`hyph_next` word, then the records; nothing else. -/
theorem hyphBlock_layout (stringsLen : Nat) (x : Int) (hx0 : -2147483648 ≤ x)
    (hx1 : x < 2147483648)
    (recs : List (Int × Int × Int)) (hlen : (recs.length : Int) < 2147483648)
    (hwf : ∀ r ∈ recs, WFRec ((stringsLen : Int) + TOO_BIG_CHAR - 1) r)
    (rest : Bytes) (off : Nat) :
    hyphBlock stringsLen
        ⟨encodeI32 (recs.length : Int) ++ (encodeI32 x ++ (encodeRecs recs ++ rest)), off⟩ =
      .ok ⟨rest, off + 8 + 12 * recs.length⟩ (applyRecs hyphInit recs) := by
  unfold hyphBlock
  simp only [bind_def]
  simp only [PM.bind_ok (be_i32_encode (by omega) hlen (encodeI32 x ++ (encodeRecs recs ++ rest)) off)]
  simp only [PM.bind_ok (be_i32_encode hx0 hx1 (encodeRecs recs ++ rest) (off + 4))]
  rw [Int.toNat_natCast]
  exact hyphLoop_encode recs hwf hyphInit rest (off + 4 + 4)

/-- Inversion of a successful hyphenation-block decode: the resulting arrays
are the fold of the streamed records over the all-zero arrays. -/
theorem hyphBlock_ok_inv {stringsLen : Nat} {s s' : PState} {out : HyphArrays}
    (h : hyphBlock stringsLen s = .ok s' out) :
    ∃ recs : List (Int × Int × Int),
      (∀ r ∈ recs, 0 ≤ (unpackHyph r.1).2 ∧ (unpackHyph r.1).2 < (HYPH_SIZE : Int)) ∧
      out = applyRecs hyphInit recs := by
  unfold hyphBlock at h
  rw [bind_def] at h
  obtain ⟨s1, cnt, h1, h2⟩ := PM.bind_ok_inv h
  rw [bind_def] at h2
  obtain ⟨s2, x, h3, h4⟩ := PM.bind_ok_inv h2
  obtain ⟨recs, _, hwfs, hout⟩ := hyphLoop_ok_inv cnt.toNat hyphInit s2 s' out h4
  exact ⟨recs, hwfs, hout⟩

/-! ## Trie operation-index lemmas -/

/-- Admissibility of a `(language, count)` claim sequence for the loop
entered with next-free bound `k` and budget `j`: language ids strictly
decreasing below `k`, each count within `[1, remaining budget]`. -/
def ClaimsAdmissible : Nat → Int → List (Nat × Int) → Prop
  | _, _, [] => True
  | k, j, p :: rest => p.1 < k ∧ 1 ≤ p.2 ∧ p.2 ≤ j ∧ ClaimsAdmissible p.1 (j - p.2) rest

/-- Total operation count claimed. -/
def claimsSum : List (Nat × Int) → Int
  | [] => 0
  | p :: rest => p.2 + claimsSum rest

/-- Byte encoding of a claim sequence: per claim, the language id then the
count, each as a big-endian `i32`. -/
def encodeClaims : List (Nat × Int) → Bytes
  | [] => []
  | p :: rest => encodeI32 (p.1 : Int) ++ (encodeI32 p.2 ++ encodeClaims rest)

/-- The loop's stores as a pure fold: record the count, decrement the budget,
record the decremented budget as the segment start. -/
def applyClaims : (Nat → Int) → (Nat → Int) → Int → List (Nat × Int) →
    ((Nat → Int) × (Nat → Int))
  | used, op_start, _, [] => (used, op_start)
  | used, op_start, j, p :: rest =>
    applyClaims (Function.update used p.1 p.2) (Function.update op_start p.1 (j - p.2))
      (j - p.2) rest

theorem claimsSum_nonneg :
    ∀ (cs : List (Nat × Int)) (k : Nat) (j : Int), ClaimsAdmissible k j cs →
      0 ≤ claimsSum cs := by
  intro cs
  induction cs with
  | nil => intro k j _; simp [claimsSum]
  | cons p rest ih =>
    intro k j hadm
    obtain ⟨_, h1, _, hrest⟩ := hadm
    have := ih p.1 (j - p.2) hrest
    unfold claimsSum
    omega

theorem claimsBelow :
    ∀ (cs : List (Nat × Int)) (k : Nat) (j : Int), ClaimsAdmissible k j cs →
      ∀ p ∈ cs, p.1 < k := by
  intro cs
  induction cs with
  | nil => intro k j _ p hp; cases hp
  | cons q rest ih =>
    intro k j hadm p hp
    obtain ⟨hq, _, _, hrest⟩ := hadm
    rcases List.mem_cons.mp hp with hp | hp
    · subst hp; exact hq
    · exact Nat.lt_trans (ih q.1 (j - q.2) hrest p hp) hq

/-- Executing the loop on an encoded admissible claim sequence whose counts
exhaust the budget: it consumes exactly the claim bytes and computes the
fold of the stores. -/
theorem trieOpLoopGo_encode :
    ∀ (cs : List (Nat × Int)) (b k : Nat) (j : Int) (hb : j ≤ (b : Int))
      (used op_start : Nat → Int),
      k ≤ BIGGEST_LANG + 1 → j < 2147483648 →
      ClaimsAdmissible k j cs → claimsSum cs = j →
      ∀ (rest : Bytes) (off : Nat),
      trieOpLoopGo b k j hb used op_start ⟨encodeClaims cs ++ rest, off⟩ =
        .ok ⟨rest, off + 8 * cs.length⟩ (applyClaims used op_start j cs) := by
  intro cs
  induction cs with
  | nil =>
    intro b k j hb used op_start hk hj31 hadm hsum rest off
    unfold claimsSum at hsum
    unfold trieOpLoopGo
    rw [dif_neg (by omega : ¬ 0 < j)]
    simp [encodeClaims, applyClaims]
  | cons p rest' ih =>
    intro b k j hb used op_start hk hj31 hadm hsum rest off
    obtain ⟨hpk, hp1, hp2, hrest⟩ := hadm
    have hk256 : k ≤ 256 := by unfold BIGGEST_LANG at hk; omega
    have hsum' : claimsSum rest' = j - p.2 := by
      unfold claimsSum at hsum
      omega
    have hsnn : 0 ≤ claimsSum rest' := claimsSum_nonneg rest' p.1 (j - p.2) hrest
    have hjpos : 0 < j := by omega
    cases b with
    | zero => omega
    | succ b' =>
      unfold trieOpLoopGo
      rw [dif_pos hjpos]
      simp only [encodeClaims, List.append_assoc]
      simp only [ranged_be_i32_in (by omega) (by omega)
        (by omega : (0 : Int) ≤ (p.1 : Int)) (by omega : (p.1 : Int) ≤ (k : Int) - 1)
        (encodeI32 p.2 ++ (encodeClaims rest' ++ rest)) off]
      simp only [@be_i32_encode p.2 (by omega) (by omega) (encodeClaims rest' ++ rest) (off + 4)]
      rw [dif_pos ⟨hp1, hp2⟩]
      rw [if_pos (by rw [Int.toNat_natCast]; unfold BIGGEST_LANG; omega)]
      rw [List.length_cons,
        show off + 8 * (rest'.length + 1) = (off + 4 + 4) + 8 * rest'.length by ring]
      simp only [Int.toNat_natCast]
      rw [ih b' p.1 (j - p.2) (by omega) (Function.update used p.1 p.2)
        (Function.update op_start p.1 (j - p.2)) (by unfold BIGGEST_LANG; omega) (by omega) hrest hsum'
        rest (off + 4 + 4)]
      rfl

/-- Structure of the fold of an admissible, budget-exhausting claim sequence:
counts recorded per claimed language, unclaimed languages untouched, segments
within `[0, j]`, pairwise disjoint, and jointly covering `[0, j)`. -/
theorem applyClaims_facts :
    ∀ (cs : List (Nat × Int)) (k : Nat) (j : Int) (used op_start : Nat → Int),
      ClaimsAdmissible k j cs → claimsSum cs = j →
      (∀ p ∈ cs, (applyClaims used op_start j cs).1 p.1 = p.2) ∧
      (∀ l : Nat, (∀ u : Int, (l, u) ∉ cs) →
        (applyClaims used op_start j cs).1 l = used l ∧
        (applyClaims used op_start j cs).2 l = op_start l) ∧
      (∀ p ∈ cs, 0 ≤ (applyClaims used op_start j cs).2 p.1 ∧
        (applyClaims used op_start j cs).2 p.1 + (applyClaims used op_start j cs).1 p.1 ≤ j) ∧
      (∀ p ∈ cs, ∀ q ∈ cs, p.1 ≠ q.1 →
        ((applyClaims used op_start j cs).2 p.1 + (applyClaims used op_start j cs).1 p.1 ≤
            (applyClaims used op_start j cs).2 q.1 ∨
          (applyClaims used op_start j cs).2 q.1 + (applyClaims used op_start j cs).1 q.1 ≤
            (applyClaims used op_start j cs).2 p.1)) ∧
      (∀ x : Int, 0 ≤ x → x < j →
        ∃ p ∈ cs, (applyClaims used op_start j cs).2 p.1 ≤ x ∧
          x < (applyClaims used op_start j cs).2 p.1 + (applyClaims used op_start j cs).1 p.1) := by
  intro cs
  induction cs with
  | nil =>
    intro k j used op_start _ hsum
    unfold claimsSum at hsum
    refine ⟨?_, ?_, ?_, ?_, ?_⟩
    · intro p hp; cases hp
    · intro l _; exact ⟨rfl, rfl⟩
    · intro p hp; cases hp
    · intro p hp; cases hp
    · intro x hx0 hx1; omega
  | cons p rest' ih =>
    intro k j used op_start hadm hsum
    obtain ⟨hpk, hp1, hp2, hrest⟩ := hadm
    have hsum' : claimsSum rest' = j - p.2 := by unfold claimsSum at hsum; omega
    have hbelow := claimsBelow rest' p.1 (j - p.2) hrest
    have hfresh : ∀ u : Int, (p.1, u) ∉ rest' := by
      intro u hmem
      exact absurd (hbelow (p.1, u) hmem) (Nat.lt_irrefl p.1)
    obtain ⟨ih1, ih2, ih3, ih4, ih5⟩ := ih p.1 (j - p.2) (Function.update used p.1 p.2)
      (Function.update op_start p.1 (j - p.2)) hrest hsum'
    set A := applyClaims (Function.update used p.1 p.2)
      (Function.update op_start p.1 (j - p.2)) (j - p.2) rest' with hAdef
    have hUp : A.1 p.1 = p.2 := by
      rw [(ih2 p.1 hfresh).1, Function.update_same]
    have hSp : A.2 p.1 = j - p.2 := by
      rw [(ih2 p.1 hfresh).2, Function.update_same]
    simp only [show applyClaims used op_start j (p :: rest') = A from rfl]
    refine ⟨?_, ?_, ?_, ?_, ?_⟩
    · intro q hq
      rcases List.mem_cons.mp hq with hq | hq
      · subst hq; exact hUp
      · exact ih1 q hq
    · intro l hl
      have hlp : l ≠ p.1 := by
        intro he
        exact hl p.2 (by rw [he, Prod.mk.eta]; exact List.mem_cons_self p rest')
      have hl' : ∀ u : Int, (l, u) ∉ rest' := fun u hm => hl u (List.mem_cons_of_mem _ hm)
      refine ⟨?_, ?_⟩
      · rw [(ih2 l hl').1, Function.update_noteq hlp]
      · rw [(ih2 l hl').2, Function.update_noteq hlp]
    · intro q hq
      rcases List.mem_cons.mp hq with hq | hq
      · subst hq
        rw [hSp, hUp]
        omega
      · have := ih3 q hq
        omega
    · intro q1 hq1 q2 hq2 hne
      rcases List.mem_cons.mp hq1 with hq1 | hq1 <;> rcases List.mem_cons.mp hq2 with hq2 | hq2
      · exact absurd (by rw [hq1, hq2]) hne
      · right
        have := (ih3 q2 hq2).2
        rw [hq1, hSp]
        omega
      · left
        have := (ih3 q1 hq1).2
        rw [hq2, hSp]
        omega
      · exact ih4 q1 hq1 q2 hq2 hne
    · intro x hx0 hx1
      by_cases hx : x < j - p.2
      · obtain ⟨q, hq, hseg⟩ := ih5 x hx0 hx
        exact ⟨q, List.mem_cons_of_mem _ hq, hseg⟩
      · refine ⟨p, List.mem_cons_self p rest', ?_, ?_⟩
        · rw [hSp]; omega
        · rw [hSp, hUp]; omega

theorem be_i32_ne_crash (s : PState) : be_i32 s ≠ .crash := by
  unfold be_i32
  split <;> simp

theorem ranged_be_i32_ne_crash (lo hi : Int) (s : PState) : ranged_be_i32 lo hi s ≠ .crash := by
  unfold ranged_be_i32
  split
  · split <;> simp
  · simp
  · rename_i h
    exact absurd h (be_i32_ne_crash s)

/-- The reconstruction loop entered with a next-free bound of at most
`BIGGEST_LANG + 1` ends in a decoded result or a taxonomy error — never in a
crash — on every input. -/
theorem trieOpLoopGo_dichotomy :
    ∀ (b k : Nat) (j : Int) (hb : j ≤ (b : Int)) (used op_start : Nat → Int) (s : PState),
      k ≤ BIGGEST_LANG + 1 →
      (∃ s' r, trieOpLoopGo b k j hb used op_start s = .ok s' r) ∨
      (∃ e, trieOpLoopGo b k j hb used op_start s = .err e) := by
  intro b
  induction b with
  | zero =>
    intro k j hb used op_start s hk
    left
    refine ⟨s, (used, op_start), ?_⟩
    unfold trieOpLoopGo
    rw [dif_neg (by omega : ¬ 0 < j)]
  | succ b' ih =>
    intro k j hb used op_start s hk
    by_cases hj : 0 < j
    · unfold trieOpLoopGo
      rw [dif_pos hj]
      cases h1 : ranged_be_i32 0 ((k : Int) - 1) s with
      | crash => exact absurd h1 (ranged_be_i32_ne_crash _ _ s)
      | err e =>
        right
        exact ⟨e, by simp only [h1]⟩
      | ok s1 nk =>
        simp only [h1]
        have hnk := (ranged_be_i32_ok_inv h1).1
        cases h2 : be_i32 s1 with
        | crash => exact absurd h2 (be_i32_ne_crash s1)
        | err e =>
          right
          exact ⟨e, by simp only [h2]⟩
        | ok s2 u =>
          simp only [h2]
          by_cases hu : 1 ≤ u ∧ u ≤ j
          · rw [dif_pos hu]
            rw [if_pos (by unfold BIGGEST_LANG at hk ⊢; omega)]
            exact ih nk.toNat (j - u) (by omega) _ _ s2 (by unfold BIGGEST_LANG at hk ⊢; omega)
          · rw [dif_neg hu]
            right
            exact ⟨.rangeViolation s1.off, rfl⟩
    · left
      refine ⟨s, (used, op_start), ?_⟩
      unfold trieOpLoopGo
      rw [dif_neg hj]

/-- When the loop returns, the counts it stored sum to exactly the budget it
was entered with: the full operation budget is partitioned. -/
theorem trieOpLoopGo_ok_sum :
    ∀ (b k : Nat) (j : Int) (hb : j ≤ (b : Int)) (used op_start : Nat → Int) (s s' : PState)
      (r : (Nat → Int) × (Nat → Int)),
      k ≤ BIGGEST_LANG + 1 → (∀ l, l < k → used l = 0) → 0 ≤ j →
      trieOpLoopGo b k j hb used op_start s = .ok s' r →
      ∑ l ∈ Finset.range (BIGGEST_LANG + 1), r.1 l =
        j + ∑ l ∈ Finset.range (BIGGEST_LANG + 1), used l := by
  intro b
  induction b with
  | zero =>
    intro k j hb used op_start s s' r hk hu0 hj0 h
    unfold trieOpLoopGo at h
    rw [dif_neg (by omega : ¬ 0 < j)] at h
    cases h
    have hj : j = 0 := by omega
    rw [hj]
    simp
  | succ b' ih =>
    intro k j hb used op_start s s' r hk hu0 hj0 h
    unfold trieOpLoopGo at h
    by_cases hj : 0 < j
    · rw [dif_pos hj] at h
      cases h1 : ranged_be_i32 0 ((k : Int) - 1) s with
      | crash => exact absurd h1 (ranged_be_i32_ne_crash _ _ s)
      | err e => simp [h1] at h
      | ok s1 nk =>
        simp only [h1] at h
        have hnk := (ranged_be_i32_ok_inv h1).1
        cases h2 : be_i32 s1 with
        | crash => exact absurd h2 (be_i32_ne_crash s1)
        | err e => simp [h2] at h
        | ok s2 u =>
          simp only [h2] at h
          by_cases hu : 1 ≤ u ∧ u ≤ j
          · rw [dif_pos hu] at h
            by_cases hbl : nk.toNat ≤ BIGGEST_LANG
            · rw [if_pos hbl] at h
              have hksucc : 1 ≤ k := by omega
              have ihres := ih nk.toNat (j - u) (by omega)
                (Function.update used nk.toNat u) (Function.update op_start nk.toNat (j - u))
                s2 s' r (by omega)
                (by
                  intro l hl
                  rw [Function.update_noteq (by omega)]
                  exact hu0 l (by omega))
                (by omega) h
              have hmem : nk.toNat ∈ Finset.range (BIGGEST_LANG + 1) :=
                Finset.mem_range.mpr (by omega)
              have e2 := Finset.sum_update_of_mem hmem used u
              have e3 : ∑ l ∈ Finset.range (BIGGEST_LANG + 1) \ {nk.toNat}, used l =
                  ∑ l ∈ Finset.range (BIGGEST_LANG + 1), used l := by
                rw [← Finset.erase_eq]
                exact Finset.sum_erase _ (hu0 nk.toNat (by omega))
              rw [e3] at e2
              rw [ihres, e2]
              ring
            · rw [if_neg hbl] at h
              cases h
          · rw [dif_neg hu] at h
            cases h
    · rw [dif_neg hj] at h
      cases h
      have hj0' : j = 0 := by omega
      rw [hj0']
      simp

/-! ## The claims -/

/-- C1: the claim that decoding always ends in a Format or a taxonomy error,
with the hyphenation record's slot index range-checked into
`[0, HYPH_SIZE - 1]` before indexing the three arrays, fails on the code:
`c1Dump` is a dump whose single hyphenation record carries the leading value
`v = 8191`, whose slot index 8191 is used without any range check to index
the 8191-capacity arrays (valid indices 0..8190), so the decode aborts with a
crash — a Rust index panic outside the taxonomy. -/
theorem c1_slot_unchecked_crash : Format.parse trivExts c1Dump = .crashed := rfl

/-- C2 counterexample: the hyphenation block is not "count then immediately
the records": a block holding only a zero exception count is rejected with a
truncation error because the decoder demands a further 32-bit field (the
discarded `hyph_next`) between the count and the records; with those four
extra bytes present the block decodes. -/
theorem c2_counterexample :
    hyphBlock 0 ⟨[0, 0, 0, 0], 0⟩ = .err .truncation ∧
    hyphBlock 0 ⟨[0, 0, 0, 0, 0, 0, 0, 0], 0⟩ = .ok ⟨[], 8⟩ hyphInit := by
  exact ⟨rfl, rfl⟩

/-- C2 (amended): the hyphenation block consists of a 32-bit exception count,
then one discarded 32-bit field (`hyph_next`), then exactly `count` flat
records — each a 32-bit value `v` followed by the word id and the list
pointer — with no other field among the records. -/
theorem c2_amended_layout (stringsLen : Nat) (x : Int) (hx0 : -2147483648 ≤ x)
    (hx1 : x < 2147483648) (recs : List (Int × Int × Int))
    (hlen : (recs.length : Int) < 2147483648)
    (hwf : ∀ r ∈ recs, WFRec ((stringsLen : Int) + TOO_BIG_CHAR - 1) r)
    (rest : Bytes) (off : Nat) :
    hyphBlock stringsLen
        ⟨encodeI32 (recs.length : Int) ++ (encodeI32 x ++ (encodeRecs recs ++ rest)), off⟩ =
      .ok ⟨rest, off + 8 + 12 * recs.length⟩ (applyRecs hyphInit recs) :=
  hyphBlock_layout stringsLen x hx0 hx1 recs hlen hwf rest off

/-- C2 (amended) witness: one record, preceded by the count 1 and the
discarded field; 20 bytes in total. -/
theorem c2_amended_layout_witness :
    hyphBlock 0 ⟨encodeI32 1 ++ (encodeI32 0 ++ (encodeRecs [(5, 0, 0)] ++ [])), 0⟩ =
      .ok ⟨[], 20⟩ (applyRecs hyphInit [(5, 0, 0)]) := by
  have h := c2_amended_layout 0 0 (by norm_num) (by norm_num) [(5, 0, 0)] (by norm_num)
    (by
      intro r hr
      rw [List.mem_singleton] at hr
      subst hr
      unfold WFRec I32Range unpackHyph HYPH_SIZE TOO_BIG_CHAR MIN_HALFWORD MAX_HALFWORD
      norm_num)
    [] 0
  simpa using h

/-- C3: decoding one hyphenation record with leading value `v`: with
`next = v / 0x10000` when `v > 0xFFFF` (else 0) and
`slot = v - next * 0x10000` (which is `v` itself when `v ≤ 0xFFFF`), the
decoder stores `link[slot] = next`, then the range-checked word in
`word[slot]`, then the range-checked list pointer in `list[slot]`. -/
theorem c3_record_unpacking (maxWord : Int) (st : HyphArrays) (v w l : Int)
    (hv0 : -2147483648 ≤ v) (hv1 : v < 2147483648)
    (hslot0 : 0 ≤ v - (if v > 0xFFFF then v / 0x10000 else 0) * 0x10000)
    (hslot1 : v - (if v > 0xFFFF then v / 0x10000 else 0) * 0x10000 < (HYPH_SIZE : Int))
    (hw0 : 0 ≤ w) (hw1 : w ≤ maxWord) (hw2 : w < 2147483648)
    (hl0 : MIN_HALFWORD ≤ l) (hl1 : l ≤ MAX_HALFWORD)
    (rest : Bytes) (off : Nat) :
    hyphIter maxWord st ⟨encodeI32 v ++ (encodeI32 w ++ (encodeI32 l ++ rest)), off⟩ =
      .ok ⟨rest, off + 12⟩
        { link := Function.update st.link
            (v - (if v > 0xFFFF then v / 0x10000 else 0) * 0x10000).toNat
            (if v > 0xFFFF then v / 0x10000 else 0).toNat
          word := Function.update st.word
            (v - (if v > 0xFFFF then v / 0x10000 else 0) * 0x10000).toNat w
          list := Function.update st.list
            (v - (if v > 0xFFFF then v / 0x10000 else 0) * 0x10000).toNat l } := by
  have hnext : (unpackHyph v).1 = if v > 0xFFFF then v / 0x10000 else 0 := by
    unfold unpackHyph
    split <;> simp
  have hslot : (unpackHyph v).2 = v - (if v > 0xFFFF then v / 0x10000 else 0) * 0x10000 := by
    unfold unpackHyph
    split <;> rename_i hc <;> simp [hc]
  have hmod : (if v > 0xFFFF then v / 0x10000 else 0).toNat % 65536 =
      (if v > 0xFFFF then v / 0x10000 else 0).toNat := by
    apply Nat.mod_eq_of_lt
    split <;> rename_i hc
    · omega
    · omega
  have h := @hyphIter_encode maxWord (v, w, l)
    ⟨⟨hv0, hv1⟩, by rw [hslot]; exact hslot0, by rw [hslot]; exact hslot1,
      hw0, hw1, hw2, hl0, hl1⟩ st rest off
  simp only [encodeRec, List.append_assoc] at h
  rw [h]
  unfold applyRec
  rw [hnext, hslot, hmod]

/-- C3 witness: the concrete scenario — a record with `v = 0x0002_0005`
(`next = 2`, `slot = 5`), word 0, list `MIN_HALFWORD` — decodes to arrays
whose `link` at slot 5 equals 2. -/
theorem c3_record_unpacking_witness :
    hyphIter 65535 hyphInit
        ⟨encodeI32 131077 ++ (encodeI32 0 ++ (encodeI32 MIN_HALFWORD ++ [])), 0⟩ =
      .ok ⟨[], 12⟩
        { link := Function.update hyphInit.link 5 2
          word := Function.update hyphInit.word 5 0
          list := Function.update hyphInit.list 5 MIN_HALFWORD } ∧
    Function.update hyphInit.link 5 2 5 = 2 := by
  constructor
  · have h := c3_record_unpacking 65535 hyphInit 131077 0 MIN_HALFWORD
      (by norm_num) (by norm_num) (by norm_num) (by norm_num [HYPH_SIZE])
      (by norm_num) (by norm_num) (by norm_num)
      (by norm_num [MIN_HALFWORD]) (by norm_num [MIN_HALFWORD, MAX_HALFWORD]) [] 0
    norm_num at h
    exact h
  · simp

/-- C4: for every budget `T` in `[0, TRIE_OP_SIZE]` and every admissible
claim sequence (language ids strictly decreasing, counts within the running
budget) whose counts sum to `T`, the loop accepts the encoded sequence and
the reconstructed arrays satisfy: claimed counts recorded in `trie_used`,
unclaimed languages leave `trie_used` and `op_start` at 0, segments lie
within `[0, T]`, are pairwise disjoint, and together cover `0..T-1`. -/
theorem c4_op_index_segments (T : Int) (hT0 : 0 ≤ T) (hT1 : T ≤ TRIE_OP_SIZE)
    (cs : List (Nat × Int)) (hadm : ClaimsAdmissible (BIGGEST_LANG + 1) T cs)
    (hsum : claimsSum cs = T) (rest : Bytes) (off : Nat) :
    ∃ used op_start : Nat → Int,
      trieOpLoop (BIGGEST_LANG + 1) T (fun _ => 0) (fun _ => 0)
          ⟨encodeClaims cs ++ rest, off⟩ =
        .ok ⟨rest, off + 8 * cs.length⟩ (used, op_start) ∧
      (∀ p ∈ cs, used p.1 = p.2) ∧
      (∀ l : Nat, (∀ u : Int, (l, u) ∉ cs) → used l = 0 ∧ op_start l = 0) ∧
      (∀ p ∈ cs, 0 ≤ op_start p.1 ∧ op_start p.1 + used p.1 ≤ T) ∧
      (∀ p ∈ cs, ∀ q ∈ cs, p.1 ≠ q.1 →
        (op_start p.1 + used p.1 ≤ op_start q.1 ∨ op_start q.1 + used q.1 ≤ op_start p.1)) ∧
      (∀ x : Int, 0 ≤ x → x < T →
        ∃ p ∈ cs, op_start p.1 ≤ x ∧ x < op_start p.1 + used p.1) := by
  have hexec := trieOpLoopGo_encode cs T.toNat (BIGGEST_LANG + 1) T (Int.self_le_toNat T)
    (fun _ => 0) (fun _ => 0) (le_refl _) (by unfold TRIE_OP_SIZE at hT1; omega)
    hadm hsum rest off
  have hfacts := applyClaims_facts cs (BIGGEST_LANG + 1) T (fun _ => 0) (fun _ => 0) hadm hsum
  exact ⟨(applyClaims (fun _ => 0) (fun _ => 0) T cs).1,
    (applyClaims (fun _ => 0) (fun _ => 0) T cs).2,
    hexec, hfacts.1, fun l hl => hfacts.2.1 l hl, hfacts.2.2.1, hfacts.2.2.2.1,
    hfacts.2.2.2.2⟩

/-- C4 witness: budget 3 partitioned by the claims (5, 2) then (3, 1). -/
theorem c4_op_index_segments_witness :
    ∃ used op_start : Nat → Int,
      trieOpLoop (BIGGEST_LANG + 1) 3 (fun _ => 0) (fun _ => 0)
          ⟨encodeClaims [(5, 2), (3, 1)] ++ [], 0⟩ =
        .ok ⟨[], 0 + 8 * ([(5, 2), (3, 1)] : List (Nat × Int)).length⟩ (used, op_start) ∧
      (∀ p ∈ ([(5, 2), (3, 1)] : List (Nat × Int)), used p.1 = p.2) ∧
      (∀ l : Nat, (∀ u : Int, (l, u) ∉ ([(5, 2), (3, 1)] : List (Nat × Int))) →
        used l = 0 ∧ op_start l = 0) ∧
      (∀ p ∈ ([(5, 2), (3, 1)] : List (Nat × Int)),
        0 ≤ op_start p.1 ∧ op_start p.1 + used p.1 ≤ 3) ∧
      (∀ p ∈ ([(5, 2), (3, 1)] : List (Nat × Int)),
        ∀ q ∈ ([(5, 2), (3, 1)] : List (Nat × Int)), p.1 ≠ q.1 →
        (op_start p.1 + used p.1 ≤ op_start q.1 ∨ op_start q.1 + used q.1 ≤ op_start p.1)) ∧
      (∀ x : Int, 0 ≤ x → x < 3 →
        ∃ p ∈ ([(5, 2), (3, 1)] : List (Nat × Int)),
          op_start p.1 ≤ x ∧ x < op_start p.1 + used p.1) :=
  c4_op_index_segments 3 (by norm_num) (by norm_num [TRIE_OP_SIZE]) [(5, 2), (3, 1)]
    ⟨by norm_num [BIGGEST_LANG], by norm_num, by norm_num, by norm_num, by norm_num,
      by norm_num, trivial⟩ rfl [] 0

/-- C5 counterexample: the value `2^31 - 1 = 2147483647` lies inside the
claimed acceptance range `[7, 2^31 - 1]`, yet the decoder rejects it with a
range violation — the code's upper bound is 147483647. -/
theorem c5_counterexample :
    fontBlock 0 0 ⟨encodeI32 2147483647 ++ [], 0⟩ = .err (.rangeViolation 0) := rfl

/-- C5 (amended): the font memory pointer read at the start of the font
block is accepted if and only if its value lies in the inclusive range
`[7, 147483647]`: inside it decoding proceeds into the rest of the block
with the cursor advanced past the field, outside it the decode fails with a
range violation at the field's offset. -/
theorem c5_amended_fmem_range (maxFonts loMemMax v : Int)
    (hv0 : -2147483648 ≤ v) (hv1 : v < 2147483648) (rest : Bytes) (off : Nat) :
    (7 ≤ v ∧ v ≤ 147483647 →
      fontBlock maxFonts loMemMax ⟨encodeI32 v ++ rest, off⟩ =
        fontBlockRest v maxFonts loMemMax ⟨rest, off + 4⟩) ∧
    (¬(7 ≤ v ∧ v ≤ 147483647) →
      fontBlock maxFonts loMemMax ⟨encodeI32 v ++ rest, off⟩ =
        .err (.rangeViolation off)) := by
  constructor
  · intro hin
    unfold fontBlock
    rw [bind_def]
    rw [PM.bind_ok (ranged_be_i32_in hv0 hv1 hin.1 hin.2 rest off)]
  · intro hout
    unfold fontBlock
    rw [bind_def]
    exact PM.bind_err (ranged_be_i32_out hv0 hv1 hout rest off)

/-- C5 (amended) witness: the boundary value 7 is accepted. -/
theorem c5_amended_fmem_range_witness :
    ((7 : Int) ≤ 7 ∧ (7 : Int) ≤ 147483647) ∧
    fontBlock 0 0 ⟨encodeI32 7 ++ [], 0⟩ = fontBlockRest 7 0 0 ⟨[], 4⟩ :=
  ⟨⟨by norm_num, by norm_num⟩,
    (c5_amended_fmem_range 0 0 7 (by norm_num) (by norm_num) [] 0).1 ⟨by norm_num, by norm_num⟩⟩

/-- C6 counterexample: a Format produced by a successful decode — under the
modelled equivalences-table decoder whose entries all hold the value 16 —
for which the category-code lookup of the in-range code point 0 fails, so
in-range lookups over decoded Formats do not always succeed. -/
theorem c6_counterexample :
    Format.parse badExts minimalDump = .success badFmt ∧
    ((0 : Int) ≤ 0 ∧ (0 : Int) < MAX_USV) ∧
    badFmt.eqtb_catcode 0 = .err := by
  refine ⟨rfl, ⟨le_refl 0, by norm_num [MAX_USV, NUMBER_USVS]⟩, rfl⟩

/-- C6 (amended): both accessors assert the code point lies in
`[0, MAX_USV)` — an out-of-range query is a caller-contract assertion
failure, not a decode error.  For in-range code points the active-character
accessor never fails, and the category-code lookup succeeds exactly when the
stored eqtb value is one of the sixteen category codes, failing otherwise. -/
theorem c6_amended_accessors (f : Format) (c : Int) :
    (0 ≤ c ∧ c < MAX_USV →
      f.eqtb_active c = .ok (f.eqtb.decode (f.engine.settings.active_base + c)) ∧
      (0 ≤ (f.eqtb.decode (f.engine.settings.cat_code_base + c)).value ∧
          (f.eqtb.decode (f.engine.settings.cat_code_base + c)).value < 16 →
        ∃ cc, f.eqtb_catcode c = .ok cc) ∧
      (¬(0 ≤ (f.eqtb.decode (f.engine.settings.cat_code_base + c)).value ∧
          (f.eqtb.decode (f.engine.settings.cat_code_base + c)).value < 16) →
        f.eqtb_catcode c = .err)) ∧
    (¬(0 ≤ c ∧ c < MAX_USV) →
      f.eqtb_active c = .assertFailed ∧ f.eqtb_catcode c = .assertFailed) := by
  constructor
  · intro hc
    refine ⟨?_, ?_, ?_⟩
    · unfold Format.eqtb_active
      rw [if_pos hc]
    · intro hval
      unfold Format.eqtb_catcode
      rw [if_pos hc]
      unfold catCodeFromI32
      rw [dif_pos hval]
      exact ⟨_, rfl⟩
    · intro hval
      unfold Format.eqtb_catcode
      rw [if_pos hc]
      unfold catCodeFromI32
      rw [dif_neg hval]
  · intro hc
    constructor
    · unfold Format.eqtb_active
      rw [if_neg hc]
    · unfold Format.eqtb_catcode
      rw [if_neg hc]

/-- C6 (amended) witness: on the minimal decoded Format (eqtb value 0
everywhere), the code point 0 is in range, the active entry resolves, and
the category-code lookup succeeds. -/
theorem c6_amended_accessors_witness :
    minimalFmt.eqtb_active 0 =
      .ok (minimalFmt.eqtb.decode (minimalFmt.engine.settings.active_base + 0)) ∧
    ∃ cc, minimalFmt.eqtb_catcode 0 = .ok cc := by
  have h := (c6_amended_accessors minimalFmt 0).1
    ⟨le_refl 0, by norm_num [MAX_USV, NUMBER_USVS]⟩
  exact ⟨h.1, h.2.1 ⟨le_refl 0, by norm_num [minimalFmt, trivSettings]⟩⟩

/-- C7: bytes after the footer magic are never inspected: for prefix-stable
external sub-decoders, a successful decode of `D` stays successful with the
identical Format when any extra bytes are appended to `D`. -/
theorem c7_trailing_bytes (X : Exts) (hX : ExtsPrefixOK X) (D extra : Bytes) (fmt : Format)
    (h : Format.parse X D = .success fmt) :
    Format.parse X (D ++ extra) = .success fmt := by
  unfold Format.parse at h ⊢
  cases hp : parse_impl X ⟨D, 0⟩ with
  | err e => simp [hp] at h
  | crash => simp [hp] at h
  | ok s' f =>
    simp only [hp] at h
    cases h
    have hext := prefixOK_parse_impl X hX D 0 s' fmt extra hp
    simp only [hext]

/-- C7 witness: the minimal valid dump, with and without a trailing byte. -/
theorem c7_trailing_bytes_witness :
    Format.parse trivExts minimalDump = .success minimalFmt ∧
    Format.parse trivExts (minimalDump ++ [7]) = .success minimalFmt :=
  ⟨rfl, c7_trailing_bytes trivExts trivExts_prefixOK minimalDump [7] minimalFmt rfl⟩

/-- C8: decoding begins with an exact match of the 4-byte header magic
"TTNC" (0x54, 0x54, 0x4E, 0x43): whenever the first four bytes differ from
these in any bit, the decode fails with a structural mismatch at offset 0 —
and, the conclusion being the same for every continuation `rest`, no later
field is examined. -/
theorem c8_header_magic (X : Exts) (b0 b1 b2 b3 : Nat) (rest : Bytes)
    (h0 : b0 < 256) (h1 : b1 < 256) (h2 : b2 < 256) (h3 : b3 < 256)
    (hne : ¬(b0 = 0x54 ∧ b1 = 0x54 ∧ b2 = 0x4E ∧ b3 = 0x43)) :
    parse_impl X ⟨b0 :: b1 :: b2 :: b3 :: rest, 0⟩ = .err (.structuralMismatch 0) := by
  unfold parse_impl
  rw [bind_def]
  apply PM.bind_err
  unfold satisfy_be_i32 be_i32
  simp only []
  rw [if_neg ?_]
  unfold HEADER_MAGIC
  split <;> omega

/-- C8 witness: the magic with its lowest byte's bit 4 flipped
(0x43 becomes 0x53) is rejected at offset 0. -/
theorem c8_header_magic_witness :
    parse_impl trivExts ⟨0x54 :: 0x54 :: 0x4E :: 0x53 :: [], 0⟩ =
      .err (.structuralMismatch 0) :=
  c8_header_magic trivExts 0x54 0x54 0x4E 0x53 [] (by norm_num) (by norm_num)
    (by norm_num) (by norm_num) (by norm_num)

/-- C9: the per-language reconstruction loop, entered as the decoder enters
it (budget `j ≥ 0`, next-free bound `BIGGEST_LANG + 1`, zeroed arrays), ends
on every input in exactly one of two ways: success, with the recorded counts
summing to the full budget (the budget partitioned among the claimed
languages), or a taxonomy decode error when no admissible language id or
count can be read; never in any other way. -/
theorem c9_loop_termination (j : Int) (hj : 0 ≤ j) (s : PState) :
    (∃ s' r, trieOpLoop (BIGGEST_LANG + 1) j (fun _ => 0) (fun _ => 0) s = .ok s' r ∧
      ∑ l ∈ Finset.range (BIGGEST_LANG + 1), r.1 l = j) ∨
    (∃ e, trieOpLoop (BIGGEST_LANG + 1) j (fun _ => 0) (fun _ => 0) s = .err e) := by
  have hd := trieOpLoopGo_dichotomy j.toNat (BIGGEST_LANG + 1) j (Int.self_le_toNat j)
    (fun _ => 0) (fun _ => 0) s (le_refl _)
  rcases hd with ⟨s', r, hok⟩ | ⟨e, he⟩
  · left
    refine ⟨s', r, hok, ?_⟩
    have hs := trieOpLoopGo_ok_sum j.toNat (BIGGEST_LANG + 1) j (Int.self_le_toNat j)
      (fun _ => 0) (fun _ => 0) s s' r (le_refl _) (fun _ _ => rfl) hj hok
    simpa using hs
  · right
    exact ⟨e, he⟩

/-- C9 witness: budget 2 with the single claim (0, 2) encoded; the loop ends
(here: in success with the counts summing to 2). -/
theorem c9_loop_termination_witness :
    (0 : Int) ≤ 2 ∧
    ((∃ s' r, trieOpLoop (BIGGEST_LANG + 1) 2 (fun _ => 0) (fun _ => 0)
          ⟨encodeClaims [(0, 2)] ++ [], 0⟩ = .ok s' r ∧
        ∑ l ∈ Finset.range (BIGGEST_LANG + 1), r.1 l = 2) ∨
      (∃ e, trieOpLoop (BIGGEST_LANG + 1) 2 (fun _ => 0) (fun _ => 0)
          ⟨encodeClaims [(0, 2)] ++ [], 0⟩ = .err e)) :=
  ⟨by norm_num, c9_loop_termination 2 (by norm_num) ⟨encodeClaims [(0, 2)] ++ [], 0⟩⟩

/-- C10: after a successful decode of the hyphenation block there is a list
of decoded records such that every slot in `[0, HYPH_SIZE - 1]` named by no
record retains `link = word = list = 0`, and every slot named by at least one
record holds exactly the values of the last record in stream order naming
it. -/
theorem c10_frame_last_wins (stringsLen : Nat) (s s' : PState) (arrs : HyphArrays)
    (h : hyphBlock stringsLen s = .ok s' arrs) :
    ∃ recs : List (Int × Int × Int), ∀ slot : Nat, slot < HYPH_SIZE →
      (lastAt recs slot = none →
        arrs.link slot = 0 ∧ arrs.word slot = 0 ∧ arrs.list slot = 0) ∧
      (∀ r, lastAt recs slot = some r →
        arrs.link slot = (unpackHyph r.1).1.toNat % 65536 ∧
        arrs.word slot = r.2.1 ∧ arrs.list slot = r.2.2) := by
  obtain ⟨recs, hwfs, hout⟩ := hyphBlock_ok_inv h
  refine ⟨recs, fun slot _ => ⟨?_, ?_⟩⟩
  · intro hnone
    have hkeep := applyRecs_lastAt_none slot recs hyphInit hnone
    rw [hout]
    simpa [hyphInit] using hkeep
  · intro r hsome
    have hlast := applyRecs_lastAt_some slot recs hyphInit r hsome
    rw [hout]
    exact hlast

/-- C10 witness: the empty hyphenation block (count 0) decodes and every
slot keeps its zeros. -/
theorem c10_frame_last_wins_witness :
    ∃ recs : List (Int × Int × Int), ∀ slot : Nat, slot < HYPH_SIZE →
      (lastAt recs slot = none →
        hyphInit.link slot = 0 ∧ hyphInit.word slot = 0 ∧ hyphInit.list slot = 0) ∧
      (∀ r, lastAt recs slot = some r →
        hyphInit.link slot = (unpackHyph r.1).1.toNat % 65536 ∧
        hyphInit.word slot = r.2.1 ∧ hyphInit.list slot = r.2.2) :=
  c10_frame_last_wins 0 ⟨zeros 8, 0⟩ ⟨[], 8⟩ hyphInit rfl
